import Mathlib

/-!
Verification of the LokanOS specification against a shallow embedding of the
relevant Rust sources.

Modules embedded here:
* `Updater`   — `services/updater/src/state.rs` (A/B slot state machine)
* `Audit`     — `services/audit-log/src/main.rs` (hash-chained append log)
* `Rbac`      — `services/api-gateway/src/rbac.rs` (policy, inheritance, authorize)
* `Health`    — `services/updater/src/health.rs` (`wait_for_quorum`)
* `Bundle`    — `services/updater/src/bundle.rs` (`validate_relative_path`, component checks)
* `RuleEngine`— `services/rule-engine/src/main.rs` (`evaluate_rule` and friends)

Conventions of the embedding:
* Rust `&str` / `String` values are modelled as `List Char`.
* `u64` counters are modelled as `Nat` (the sources only ever increment by 1,
  far from wraparound; no wrapping arithmetic is performed on them).
* Methods that mutate `&mut self` and return `Result` are modelled as pure
  functions returning a pair of the `Except` result and the successor state;
  every early-`return Err` path in the sources leaves the state untouched,
  which the embedding mirrors by returning the input state unchanged.
* External, out-of-repository computations (SHA-256 from the `sha2` crate,
  `serde_json` serialization) are parameters of the definitions that call
  them, since the claims under proof never depend on their internals.
-/

namespace LokanOS

/-- Rust `&str`, modelled as its character sequence. -/
abbrev Str := List Char

namespace Updater

/-- `Slot` from `state.rs`. -/
inductive Slot
  | A
  | B
deriving DecidableEq, Repr

/-- `Slot::other` from `state.rs`. -/
def Slot.other : Slot → Slot
  | .A => .B
  | .B => .A

/-- `Slot::ALL` from `state.rs`. -/
def Slot.ALL : List Slot := [.A, .B]

/-- `SlotState` from `state.rs`. -/
inductive SlotState
  | Inactive
  | Staged
  | Booting
  | Active
  | Bad
deriving DecidableEq, Repr

/-- `SlotInfo` from `state.rs`. -/
structure SlotInfo where
  state : SlotState
  artifact : Option Str
  generation : Nat
deriving DecidableEq, Repr

/-- `SlotInfo::new` from `state.rs`. -/
def SlotInfo.new (s : SlotState) : SlotInfo :=
  { state := s, artifact := none, generation := 0 }

/-- `UpdaterState` from `state.rs`.  The `slots: BTreeMap<Slot, SlotInfo>`
field always contains exactly the two keys `A` and `B` (they are inserted by
`Default` and never removed), so it is modelled as the two fields
`slotA`/`slotB` of a total map over `Slot`. -/
structure UpdaterState where
  generation : Nat
  active : Option Slot
  previous_active : Option Slot
  staging : Option Slot
  last_failed : Option Slot
  slotA : SlotInfo
  slotB : SlotInfo
deriving DecidableEq, Repr

/-- Lookup in the `slots` map (`self.slots[&slot]` / `self.slots.get(&slot)`). -/
def UpdaterState.getSlot (s : UpdaterState) : Slot → SlotInfo
  | .A => s.slotA
  | .B => s.slotB

/-- Write through `self.slots.get_mut(&slot)`. -/
def UpdaterState.setSlot (s : UpdaterState) (slot : Slot) (info : SlotInfo) : UpdaterState :=
  match slot with
  | .A => { s with slotA := info }
  | .B => { s with slotB := info }

/-- `impl Default for UpdaterState` from `state.rs`. -/
def UpdaterState.default : UpdaterState :=
  { generation := 0
    active := some .A
    previous_active := none
    staging := none
    last_failed := none
    slotA := SlotInfo.new .Active
    slotB := SlotInfo.new .Inactive }

/-- `StageError` from `state.rs` (payload strings dropped where irrelevant). -/
inductive StageError
  | NoAvailableSlot
  | SlotBooting
  | TargetSlotUnavailable (slot : Slot)
  | TargetSlotMismatch (expected requested : Slot)
  | InvalidBundle (msg : Str)
deriving DecidableEq, Repr

/-- `CommitError` from `state.rs`. -/
inductive CommitError
  | NothingStaged
  | InvalidStageState
deriving DecidableEq, Repr

/-- `RollbackError` from `state.rs`. -/
inductive RollbackError
  | NoPreviousActive
  | NoFailedSlot
deriving DecidableEq, Repr

/-- `UpdaterState::is_slot_available_for_stage` from `state.rs`. -/
def UpdaterState.is_slot_available_for_stage (s : UpdaterState) (slot : Slot) : Bool :=
  if s.active = some slot ∧ (s.getSlot slot).state = .Active then
    false
  else
    match (s.getSlot slot).state with
    | .Inactive | .Bad | .Staged => true
    | _ => false

/-- The body of `UpdaterState::stage` once a `staging` slot exists
(`state.rs` lines 117–133): restage into the recorded staging slot. -/
def UpdaterState.stageExisting (s : UpdaterState) (slot : Slot) (artifact : Str) :
    Except StageError Slot × UpdaterState :=
  let info := s.getSlot slot
  if info.state = .Booting then
    (.error .SlotBooting, s)
  else if info.state = .Staged ∧ info.artifact = some artifact then
    (.ok slot, s)
  else
    let g := s.generation + 1
    (.ok slot,
      { s.setSlot slot { state := .Staged, artifact := some artifact, generation := g } with
        generation := g })

/-- `UpdaterState::stage` from `state.rs`. -/
def UpdaterState.stage (s : UpdaterState) (artifact : Str) (target : Option Slot) :
    Except StageError Slot × UpdaterState :=
  match s.staging with
  | some slot =>
    match target with
    | some requested =>
      if requested ≠ slot then
        (.error (.TargetSlotMismatch slot requested), s)
      else
        s.stageExisting slot artifact
    | none => s.stageExisting slot artifact
  | none =>
    let candidate : Except StageError Slot :=
      match target with
      | some slot =>
        if s.is_slot_available_for_stage slot then .ok slot
        else .error (.TargetSlotUnavailable slot)
      | none =>
        match Slot.ALL.find? (fun slot => s.is_slot_available_for_stage slot) with
        | some slot => .ok slot
        | none => .error .NoAvailableSlot
    match candidate with
    | .error e => (.error e, s)
    | .ok cand =>
      let g := s.generation + 1
      (.ok cand,
        { s.setSlot cand { state := .Staged, artifact := some artifact, generation := g } with
          generation := g
          staging := some cand })

/-- `UpdaterState::begin_commit` from `state.rs`. -/
def UpdaterState.begin_commit (s : UpdaterState) : Except CommitError Slot × UpdaterState :=
  match s.staging with
  | none => (.error .NothingStaged, s)
  | some slot =>
    let info := s.getSlot slot
    match info.state with
    | .Staged => (.ok slot, s.setSlot slot { info with state := .Booting })
    | .Booting => (.ok slot, s)
    | _ => (.error .InvalidStageState, s)

/-- `UpdaterState::finalize_commit` from `state.rs`. -/
def UpdaterState.finalize_commit (s : UpdaterState) (slot : Slot) : UpdaterState :=
  let s1 :=
    match s.active with
    | some prev =>
      if prev ≠ slot then s.setSlot prev { s.getSlot prev with state := .Inactive } else s
    | none => s
  let s2 := s1.setSlot slot { s1.getSlot slot with state := .Active }
  { s2 with
    previous_active :=
      match s.active with
      | some prev => if prev ≠ slot then some prev else none
      | none => none
    active := some slot
    staging := none
    last_failed := none }

/-- `UpdaterState::fail_commit` from `state.rs`. -/
def UpdaterState.fail_commit (s : UpdaterState) (slot : Slot) : UpdaterState :=
  let s1 := s.setSlot slot { s.getSlot slot with state := .Bad }
  { s1 with last_failed := some slot, staging := none }

/-- `UpdaterState::mark_active_bad` from `state.rs`. -/
def UpdaterState.mark_active_bad (s : UpdaterState) : Option Slot × UpdaterState :=
  match s.active with
  | none => (none, s)
  | some active =>
    let info := s.getSlot active
    if info.state ≠ .Active then
      (none, s)
    else
      (some active,
        { s.setSlot active { info with state := .Bad } with
          active := none
          last_failed := some active })

/-- `UpdaterState::rollback` from `state.rs`. -/
def UpdaterState.rollback (s : UpdaterState) : Except RollbackError Slot × UpdaterState :=
  match s.previous_active with
  | none => (.error .NoPreviousActive, s)
  | some prev =>
    match s.last_failed with
    | none => (.error .NoFailedSlot, s)
    | some failed =>
      let s1 := s.setSlot prev { s.getSlot prev with state := .Active }
      let finfo := s1.getSlot failed
      let s2 :=
        if finfo.state = .Bad then s1.setSlot failed { finfo with state := .Inactive } else s1
      (.ok prev,
        { s2 with
          active := some prev
          previous_active := none
          last_failed := none
          staging := none })

/-- One operation of the updater state machine, with its arguments. -/
inductive Op
  | stage (artifact : Str) (target : Option Slot)
  | begin_commit
  | finalize_commit (slot : Slot)
  | fail_commit (slot : Slot)
  | mark_active_bad
  | rollback
deriving DecidableEq, Repr

/-- Apply one operation; the error paths of the sources leave the state
unchanged, which the paired results above already encode. -/
def Op.apply (s : UpdaterState) : Op → UpdaterState
  | .stage a t => (s.stage a t).2
  | .begin_commit => s.begin_commit.2
  | .finalize_commit slot => s.finalize_commit slot
  | .fail_commit slot => s.fail_commit slot
  | .mark_active_bad => s.mark_active_bad.2
  | .rollback => s.rollback.2

/-- Run a finite sequence of operations from a state. -/
def runOps (s : UpdaterState) (ops : List Op) : UpdaterState :=
  ops.foldl Op.apply s

end Updater

namespace Audit

/-- `AuditRecord` from `audit-log/src/main.rs`.  The stored `prev_hash` and
`hash` fields are base64 renderings of 32-byte digests; since the base64
`STANDARD` engine is a bijection onto its range (`decode ∘ encode = id`), the
embedding keeps the decoded byte views directly.  The `timestamp` is the
`Utc::now()` captured at append time, modelled as an abstract `Nat` supplied
by the caller. -/
structure AuditRecord (Event : Type) where
  timestamp : Nat
  prev_hash : List Nat
  hash : List Nat
  event : Event
deriving DecidableEq

/-- `AuditWriter` from `audit-log/src/main.rs`: the hydrated `prev_hash`
together with the log file contents, modelled as the list of its parsed
records in file order (`read_all` parses one record per line). -/
structure AuditWriter (Event : Type) where
  prev_hash : List Nat
  file : List (AuditRecord Event)
deriving DecidableEq

/-- `AuditWriter::hydrate_prev_hash` from `audit-log/src/main.rs`: 32 zero
bytes for a missing or empty file, otherwise the fold that keeps the decoded
`hash` of each parsed record, ending with the last one. -/
def hydrate_prev_hash {Event : Type} (file : List (AuditRecord Event)) : List Nat :=
  file.foldl (fun _ r => r.hash) (List.replicate 32 0)

/-- `AuditWriter::new` from `audit-log/src/main.rs` (given the file contents). -/
def AuditWriter.new {Event : Type} (file : List (AuditRecord Event)) : AuditWriter Event :=
  { prev_hash := hydrate_prev_hash file, file := file }

/-- `AuditWriter::append` from `audit-log/src/main.rs`.  `h` is SHA-256 from
the `sha2` crate and `ser` the `serde_json::to_vec` serialization of the
incoming event, both parameters of the embedding. -/
def AuditWriter.append {Event : Type} (h : List Nat → List Nat) (ser : Event → List Nat)
    (w : AuditWriter Event) (timestamp : Nat) (event : Event) : AuditWriter Event :=
  let digest := h (w.prev_hash ++ ser event)
  { prev_hash := digest
    file := w.file ++
      [{ timestamp := timestamp, prev_hash := w.prev_hash, hash := digest, event := event }] }

/-- A finite sequence of `append` calls (each with its captured timestamp). -/
def appendAll {Event : Type} (h : List Nat → List Nat) (ser : Event → List Nat)
    (w : AuditWriter Event) (events : List (Nat × Event)) : AuditWriter Event :=
  events.foldl (fun w te => w.append h ser te.1 te.2) w

/-- Spec-side chain predicate: every record's `prev_hash` links to its
predecessor (`p` for the first one) and its `hash` is `h` of
`prev_hash ++ ser event`. -/
def chainOk {Event : Type} (h : List Nat → List Nat) (ser : Event → List Nat) :
    List Nat → List (AuditRecord Event) → Bool
  | _, [] => true
  | p, r :: rest =>
    r.prev_hash == p && r.hash == h (r.prev_hash ++ ser r.event) && chainOk h ser r.hash rest

/-- The hash carried out of a fold over `file` that started from `p`
(the generalisation of `hydrate_prev_hash` used in the proofs). -/
def lastHash {Event : Type} (p : List Nat) (file : List (AuditRecord Event)) : List Nat :=
  file.foldl (fun _ r => r.hash) p

end Audit

namespace Rbac

/-- `Role` from `api-gateway/src/rbac.rs`. -/
inductive Role
  | Owner
  | Admin
  | Member
  | Guest
deriving DecidableEq, Repr

instance : Fintype Role :=
  ⟨⟨{.Owner, .Admin, .Member, .Guest}, by decide⟩, by intro x; cases x <;> decide⟩

/-- `RouteRule` from `rbac.rs`.  `HashSet`s are modelled as lists queried only
through membership; HTTP methods are modelled by their token strings. -/
structure RouteRule where
  pattern : Str
  methods : List Str
  roles : List Role
  audit_action : Option Str
deriving DecidableEq

/-- `RbacPolicy` from `rbac.rs`.  The `inherit: HashMap<Role, HashSet<Role>>`
is modelled as an association list with at most one entry per role (the map
"maps to roles it inherits from"). -/
structure RbacPolicy where
  rules : List RouteRule
  inherit : List (Role × List Role)

/-- `Decision` from `rbac.rs`. -/
structure Decision where
  allowed : Bool
  audit_action : Option Str
deriving DecidableEq, Repr

/-- `RoutePattern::matches` from `rbac.rs`: a trailing `'*'` makes the rest a
required path prefix, otherwise the pattern must equal the path. -/
def patternMatches (pat : Str) (path : Str) : Bool :=
  if pat.getLast? = some '*' then
    pat.dropLast.isPrefixOf path
  else
    pat == path

/-- `RouteRule::matches` from `rbac.rs`. -/
def RouteRule.ruleMatches (rule : RouteRule) (method : Str) (path : Str) : Bool :=
  rule.methods.contains method && patternMatches rule.pattern path

/-- `self.inherit.get(&current)` with the absent case flattened to `[]`
(the source simply pushes nothing when the key is absent). -/
def inheritsOf (p : RbacPolicy) (r : Role) : List Role :=
  match p.inherit.lookup r with
  | some parents => parents
  | none => []

/-- The `while let Some(current) = stack.pop()` loop of
`RbacPolicy::expand_roles` from `rbac.rs`.  `HashSet` iteration order over the
pushed parents is unspecified in Rust; the embedding pushes them in list
order, which does not affect the computed set. -/
def expandLoop (p : RbacPolicy) : List Role → Finset Role → Finset Role
  | [], visited => visited
  | current :: stack, visited =>
    if current ∈ visited then
      expandLoop p stack visited
    else
      expandLoop p (inheritsOf p current ++ stack) (insert current visited)
termination_by stack visited => ((visitedᶜ : Finset Role).card, stack.length)
decreasing_by
  · exact Prod.Lex.right _ (Nat.lt_succ_self _)
  · apply Prod.Lex.left
    rw [Finset.compl_insert]
    exact Finset.card_erase_lt_of_mem (Finset.mem_compl.mpr (by assumption))

/-- `RbacPolicy::expand_roles` from `rbac.rs`. -/
def RbacPolicy.expand_roles (p : RbacPolicy) (role : Role) : Finset Role :=
  expandLoop p [role] ∅

/-- The `for rule in &self.rules` loop of `RbacPolicy::authorize`. -/
def authorizeLoop (effective : Finset Role) (method path : Str) : List RouteRule → Decision
  | [] => { allowed := false, audit_action := none }
  | rule :: rest =>
    if rule.ruleMatches method path then
      { allowed := rule.roles.any (fun r => r ∈ effective), audit_action := rule.audit_action }
    else
      authorizeLoop effective method path rest

/-- `RbacPolicy::authorize` from `rbac.rs`. -/
def RbacPolicy.authorize (p : RbacPolicy) (role : Role) (method path : Str) : Decision :=
  authorizeLoop (p.expand_roles role) method path p.rules

/-- Direct inheritance step: `b` is listed among the roles `a` inherits from. -/
def InheritStep (p : RbacPolicy) (a b : Role) : Prop :=
  b ∈ inheritsOf p a

instance (p : RbacPolicy) (a b : Role) : Decidable (InheritStep p a b) :=
  inferInstanceAs (Decidable (b ∈ inheritsOf p a))

/-- Spec-side route matching, written from the claim: the method set contains
the method, and the pattern matches the path — exact equality, or prefix
match when the pattern ends in `'*'`. -/
def specRuleMatches (rule : RouteRule) (method path : Str) : Prop :=
  method ∈ rule.methods ∧
    ((rule.pattern.getLast? = some '*' ∧ rule.pattern.dropLast <+: path) ∨
      (rule.pattern.getLast? ≠ some '*' ∧ rule.pattern = path))

instance (rule : RouteRule) (method path : Str) : Decidable (specRuleMatches rule method path) :=
  inferInstanceAs (Decidable (_ ∧ (_ ∨ _)))

/-- Spec-side decision, written from the claim: the first rule in file order
that matches decides; `allowed` is intersection-nonemptiness of the rule's
roles with the effective role set; no matching rule denies with no audit
action. -/
def specDecision (p : RbacPolicy) (role : Role) (method path : Str) : Decision :=
  match p.rules.find? (fun rule => decide (specRuleMatches rule method path)) with
  | some rule =>
    { allowed := decide (rule.roles.toFinset ∩ p.expand_roles role ≠ ∅)
      audit_action := rule.audit_action }
  | none => { allowed := false, audit_action := none }

end Rbac

/-- ASCII lowercasing of one character (`u8::to_ascii_lowercase`); all strings
the sources case-fold are ASCII identifiers, so this also models
`str::to_lowercase` on them. -/
def asciiLowerChar (c : Char) : Char :=
  if 'A' ≤ c ∧ c ≤ 'Z' then Char.ofNat (c.toNat + 32) else c

/-- ASCII lowercasing of a string. -/
def asciiLowercase (s : Str) : Str :=
  s.map asciiLowerChar

/-- `str::eq_ignore_ascii_case`. -/
def eqIgnoreAsciiCase (a b : Str) : Bool :=
  asciiLowercase a == asciiLowercase b

namespace Health

/-- The observable outcome of one HTTP health exchange
(`self.client.get(endpoint).send()` plus body handling): either the transport
failed, or a response with a status code arrived whose body parsed as
`HealthResponse { status }` (`some status`) or failed to parse (`none`). -/
inductive Exchange
  | transportErr
  | response (status : Nat) (body : Option Str)
deriving DecidableEq, Repr

/-- `HealthCheckError` from `health.rs`.  Rust wraps both cases in
`HealthCheckError::Http(reqwest::Error)`; the embedding tags which
`reqwest::Error` it was (a transport failure, or an `error_for_status`
rejection carrying the code). -/
inductive HealthErr
  | transport
  | status (code : Nat)
deriving DecidableEq, Repr

/-- One endpoint poll from the `for endpoint in endpoints` loop of
`wait_for_quorum`: `send().await?` propagates transport errors,
`error_for_status()?` turns a 4xx/5xx status into an error, and otherwise the
endpoint counts as healthy exactly when the status `is_success` (2xx) and the
body parsed with `status` equal to `"ok"` case-insensitively. -/
def pollOne : Exchange → Except HealthErr Bool
  | .transportErr => .error .transport
  | .response st body =>
    if 400 ≤ st ∧ st ≤ 599 then
      .error (.status st)
    else if 200 ≤ st ∧ st < 300 then
      match body with
      | some s => .ok (eqIgnoreAsciiCase s ['o', 'k'])
      | none => .ok false
    else
      .ok false

/-- One full round over all endpoints, accumulating the healthy count; the
`?` operators abort the whole call at the first erroring endpoint. -/
def pollRound : List Exchange → Except HealthErr Nat
  | [] => .ok 0
  | ex :: rest =>
    match pollOne ex with
    | .error e => .error e
    | .ok healthy =>
      match pollRound rest with
      | .error e => .error e
      | .ok n => .ok ((if healthy then 1 else 0) + n)

/-- The polling loop of `wait_for_quorum`.  Real time is modelled by the
schedule `rounds`: entry `i` holds the exchange outcomes of round `i`, and the
monotonic deadline (`Instant::now() >= deadline_at`, checked after each
round) elapses exactly after the last scheduled round. -/
def waitLoop (quorum : Nat) : List (List Exchange) → Except HealthErr Bool
  | [] => .ok false
  | round :: rest =>
    match pollRound round with
    | .error e => .error e
    | .ok healthy =>
      if quorum ≤ healthy then .ok true
      else
        match rest with
        | [] => .ok false
        | _ :: _ => waitLoop quorum rest

/-- `HttpHealthClient::wait_for_quorum` from `health.rs`; `numEndpoints` is
`endpoints.len()` (each round of the schedule carries one exchange per
endpoint, in order). -/
def wait_for_quorum (numEndpoints quorum : Nat) (rounds : List (List Exchange)) :
    Except HealthErr Bool :=
  if quorum = 0 ∨ numEndpoints = 0 then .ok true
  else waitLoop (min quorum numEndpoints) rounds

/-- Spec-side: an exchange that counts as healthy — a 2xx response whose body
parsed with `status` case-insensitively equal to `"ok"`. -/
def isHealthy : Exchange → Bool
  | .response st (some s) => (200 ≤ st && st < 300) && eqIgnoreAsciiCase s ['o', 'k']
  | _ => false

/-- Spec-side: the number of healthy endpoints in one round. -/
def countHealthy (round : List Exchange) : Nat :=
  (round.filter isHealthy).length

/-- Spec-side: an exchange that completes without making the call abort — no
transport failure and a status outside 400–599. -/
def completesCleanly : Exchange → Bool
  | .transportErr => false
  | .response st _ => !(400 ≤ st && st ≤ 599)

end Health

namespace Bundle

/-- `std::path::Component` on Unix (`Prefix` components exist only on
Windows). -/
inductive PathComponent
  | RootDir
  | CurDir
  | ParentDir
  | Normal (name : Str)
deriving DecidableEq, Repr

/-- Classification of one non-leading path segment, after the normalisation
`Path::components` performs: empty segments and non-leading `"."` segments
are dropped, `".."` is `ParentDir`. -/
def segToComp : Str → Option PathComponent
  | [] => none
  | s =>
    if s = ['.'] then none
    else if s = ['.', '.'] then some .ParentDir
    else some (.Normal s)

/-- `Path::components` on Unix: a leading `'/'` yields `RootDir`, a leading
`"."` segment is kept as `CurDir`, all other segments are classified by
`segToComp`. -/
def pathComponents (path : Str) : List PathComponent :=
  if path = [] then []
  else if path.head? = some '/' then
    .RootDir :: (path.splitOn '/').filterMap segToComp
  else
    match path.splitOn '/' with
    | [] => []
    | first :: rest =>
      (if first = ['.'] then [PathComponent.CurDir] else (segToComp first).toList)
        ++ rest.filterMap segToComp

/-- `Path::is_absolute` on Unix: the path has a root. -/
def isAbsolute (path : Str) : Bool :=
  path.head? = some '/'

/-- The constructors of `BundleError` from `bundle.rs` reachable from the
fragment embedded here (path validation and the component metadata check);
`IoErr` stands for `BundleError::Io(_)` with any non-`NotFound` kind. -/
inductive BundleError
  | InvalidComponentPath (path : Str)
  | MissingComponentFile (path : Str)
  | IoErr
deriving DecidableEq, Repr

/-- `validate_relative_path` from `bundle.rs`: reject absolute paths, then
reject any component that is neither `CurDir` nor `Normal`.  (The source
returns on the first offending component; since the error carries the whole
path, checking them all is the same function.) -/
def validate_relative_path (path : Str) : Except BundleError Unit :=
  if isAbsolute path then
    .error (.InvalidComponentPath path)
  else if (pathComponents path).all
      (fun c => match c with | .CurDir => true | .Normal _ => true | _ => false) then
    .ok ()
  else
    .error (.InvalidComponentPath path)

/-- What `fs::metadata(root.join(component.path))` can report about the
component's target. -/
inductive FsMeta
  | notFound
  | ioError
  | file
  | dir
deriving DecidableEq, Repr

/-- The per-component body of `FilesystemBundleVerifier::verify`
(`bundle.rs` lines 150–162): validate the relative path, then require the
target to exist (`NotFound` ⇒ `MissingComponentFile`, other I/O errors
propagate) and to be a regular file (`!is_file()` ⇒
`MissingComponentFile`).  `fs` is the filesystem oracle for the joined
component path. -/
def checkComponent (fs : Str → FsMeta) (path : Str) : Except BundleError Unit :=
  match validate_relative_path path with
  | .error e => .error e
  | .ok _ =>
    match fs path with
    | .notFound => .error (.MissingComponentFile path)
    | .ioError => .error .IoErr
    | .dir => .error (.MissingComponentFile path)
    | .file => .ok ()

end Bundle

namespace RuleEngine

/-- `serde_json::Value`.  JSON numbers (`i64`/`u64`/finite `f64`) are
modelled as rationals: the rule engine only ever compares them with
`as_f64`-coercion, never does arithmetic, and the order on finite doubles
embeds order-faithfully in `ℚ`. -/
inductive Json
  | null
  | bool (b : Bool)
  | num (q : Rat)
  | str (s : Str)
  | arr (elems : List Json)
  | obj (fields : List (Str × Json))

mutual

/-- Structural equality of JSON values (`PartialEq for serde_json::Value`). -/
def Json.beq : Json → Json → Bool
  | .null, .null => true
  | .bool a, .bool b => a == b
  | .num a, .num b => a == b
  | .str a, .str b => a == b
  | .arr xs, .arr ys => Json.beqList xs ys
  | .obj fs, .obj gs => Json.beqFields fs gs
  | _, _ => false

/-- Elementwise equality of JSON arrays. -/
def Json.beqList : List Json → List Json → Bool
  | [], [] => true
  | x :: xs, y :: ys => Json.beq x y && Json.beqList xs ys
  | _, _ => false

/-- Entrywise equality of JSON objects. -/
def Json.beqFields : List (Str × Json) → List (Str × Json) → Bool
  | [], [] => true
  | (k1, v1) :: fs, (k2, v2) :: gs => k1 == k2 && Json.beq v1 v2 && Json.beqFields fs gs
  | _, _ => false

end

instance : BEq Json := ⟨Json.beq⟩

/-- `serde_json::Map::get`: the map is a `BTreeMap<String, Value>` with
unique keys, modelled as an association list looked up by first match. -/
def objGet (fields : List (Str × Json)) (key : Str) : Option Json :=
  fields.lookup key

/-- The `for part in iter` loop of `resolve_path`: descend through nested
objects. -/
def resolvePathGo : Json → List Str → Option Json
  | v, [] => some v
  | .obj fields, part :: rest =>
    match objGet fields part with
    | some v => resolvePathGo v rest
    | none => none
  | _, _ :: _ => none

/-- `resolve_path` from `rule-engine/src/main.rs`: direct key lookup first,
then dot-separated descent. -/
def resolve_path (context : List (Str × Json)) (path : Str) : Option Json :=
  match objGet context path with
  | some v => some v
  | none =>
    match path.splitOn '.' with
    | [] => none
    | first :: rest =>
      match objGet context first with
      | some v => resolvePathGo v rest
      | none => none

/-- `ValueRef` from `rule-engine/src/main.rs`. -/
inductive ValueRef
  | Literal (value : Json)
  | Context (path : Str)

/-- `ValueRef::resolve`: a literal is itself; a context path resolves through
`resolve_path`, with the special path `"now"` defaulting to the RFC3339
rendering of the evaluation time.  The `DateTime<Utc>` argument is only ever
used through `to_rfc3339`, so it is modelled by that rendering `now : Str`. -/
def ValueRef.resolve (vr : ValueRef) (context : List (Str × Json)) (now : Str) : Json :=
  match vr with
  | .Literal v => v
  | .Context path =>
    match resolve_path context path with
    | some v => v
    | none => if path = ['n', 'o', 'w'] then .str now else .null

/-- `serde_json::Value::as_f64`: any number coerces, nothing else does. -/
def Json.as_f64 : Json → Option Rat
  | .num q => some q
  | _ => none

/-- `Condition` from `rule-engine/src/main.rs`. -/
inductive Condition
  | Equals (left right : ValueRef)
  | GreaterThan (left right : ValueRef)
  | LessThan (left right : ValueRef)

/-- `ConditionState` from `rule-engine/src/main.rs`.  The payload strings are
human-readable formatting of the compared values only; the embedding keeps
the constructor and lets the trace record the condition itself. -/
inductive ConditionState
  | Matched
  | Failed
deriving DecidableEq, Repr

/-- `compare_numeric` from `rule-engine/src/main.rs`. -/
def compare_numeric (cmp : Rat → Rat → Bool) (left right : ValueRef)
    (context : List (Str × Json)) (now : Str) : ConditionState :=
  let lv := left.resolve context now
  let rv := right.resolve context now
  match lv.as_f64, rv.as_f64 with
  | some l, some r => if cmp l r then .Matched else .Failed
  | _, _ => .Failed

/-- `Condition::evaluate` from `rule-engine/src/main.rs`. -/
def Condition.evaluate (c : Condition) (context : List (Str × Json)) (now : Str) :
    ConditionState :=
  match c with
  | .Equals l r => if (l.resolve context now) == (r.resolve context now) then .Matched else .Failed
  | .GreaterThan l r => compare_numeric (fun l r => decide (r < l)) l r context now
  | .LessThan l r => compare_numeric (fun l r => decide (l < r)) l r context now

/-- The entries of the human-readable trace, as tokens: the strings the
source formats are in bijection with these. -/
inductive TraceMsg
  | evaluating (ruleId : Str)
  | condMatched (c : Condition)
  | condFailed (c : Condition)
  | satisfied
  | failed

/-- `RuleDefinition` from `rule-engine/src/main.rs`, generic over the action
payload type (the engine only clones actions, never inspects them). -/
structure RuleDefinition (A : Type) where
  id : Str
  conditions : List Condition
  actions : List A

/-- `ActionStatus` from `rule-engine/src/main.rs`. -/
inductive ActionStatus
  | Executed
  | Skipped
deriving DecidableEq, Repr

/-- `ActionExecution` from `rule-engine/src/main.rs`. -/
structure ActionExecution (A : Type) where
  action : A
  status : ActionStatus

/-- `EvaluationResult` from `rule-engine/src/main.rs`. -/
structure EvaluationResult (A : Type) where
  fired : Bool
  trace : List TraceMsg
  actions : List (ActionExecution A)

/-- The `for condition in &rule.conditions` loop of `evaluate_rule`: push one
trace entry per evaluated condition and break at the first failure. -/
def evalConditions (context : List (Str × Json)) (now : Str) :
    List Condition → List TraceMsg × Bool
  | [] => ([], true)
  | c :: rest =>
    match c.evaluate context now with
    | .Matched =>
      let r := evalConditions context now rest
      (.condMatched c :: r.1, r.2)
    | .Failed => ([.condFailed c], false)

/-- `evaluate_rule` from `rule-engine/src/main.rs`. -/
def evaluate_rule {A : Type} (rule : RuleDefinition A) (context : List (Str × Json))
    (now : Str) : EvaluationResult A :=
  let r := evalConditions context now rule.conditions
  { fired := r.2
    trace := .evaluating rule.id :: r.1 ++ [if r.2 then TraceMsg.satisfied else TraceMsg.failed]
    actions := rule.actions.map fun a =>
      { action := a, status := if r.2 then .Executed else .Skipped } }

end RuleEngine

namespace Rbac

/-- The constructors of `PolicyError` from `rbac.rs` reachable from the
conversion fragment embedded here (`Io`/`Parse` concern file loading). -/
inductive PolicyError
  | UnknownRole (name : Str)
  | InvalidMethod (name : Str)
deriving DecidableEq, Repr

/-- `Role::from_str` from `rbac.rs`: case-insensitive match on the four role
names. -/
def roleFromStr (s : Str) : Except PolicyError Role :=
  let l := asciiLowercase s
  if l = ['o', 'w', 'n', 'e', 'r'] then .ok .Owner
  else if l = ['a', 'd', 'm', 'i', 'n'] then .ok .Admin
  else if l = ['m', 'e', 'm', 'b', 'e', 'r'] then .ok .Member
  else if l = ['g', 'u', 'e', 's', 't'] then .ok .Guest
  else .error (.UnknownRole s)

/-- Modelled from the `http` crate (outside this repository):
`Method::from_bytes` accepts a non-empty sequence of HTTP token characters
(alphanumerics and the ASCII punctuation `! # $ % & ' * + - . ^ _ | ~` and
the backquote, here listed by code point) and yields that token as the
method. -/
def isTokenChar (c : Char) : Bool :=
  c.isAlphanum || [33, 35, 36, 37, 38, 39, 42, 43, 45, 46, 94, 95, 96, 124, 126].contains c.toNat

/-- `Method::from_bytes(method.as_bytes())` with the gateway's error mapping
(`rbac.rs` lines 230–234). -/
def methodFromBytes (m : Str) : Except PolicyError Str :=
  if m ≠ [] ∧ m.all isTokenChar then .ok m else .error (.InvalidMethod m)

/-- The HTTP `GET` method token. -/
def GET : Str := ['G', 'E', 'T']

/-- `RawRoute` from `rbac.rs` (the `#[serde(default)]` on `methods` makes an
omitted YAML list arrive as the empty list). -/
structure RawRoute where
  pattern : Str
  methods : List Str
  roles : List Str
  audit_action : Option Str
deriving DecidableEq

/-- The methods computation of `TryFrom<RawPolicy> for RbacPolicy`
(`rbac.rs` lines 222–235): an empty list defaults to the singleton `{GET}`,
otherwise each name must parse as a method. -/
def convertMethods (ms : List Str) : Except PolicyError (List Str) :=
  if ms.isEmpty then .ok [GET]
  else ms.mapM methodFromBytes

/-- The per-route body of `TryFrom<RawPolicy> for RbacPolicy`
(`rbac.rs` lines 221–250). -/
def convertRoute (raw : RawRoute) : Except PolicyError RouteRule := do
  let methods ← convertMethods raw.methods
  let roles ← raw.roles.mapM roleFromStr
  .ok { pattern := raw.pattern
        methods := methods
        roles := roles
        audit_action := raw.audit_action }

end Rbac

namespace Updater

@[simp] theorem setSlot_generation (s : UpdaterState) (slot : Slot) (info : SlotInfo) :
    (s.setSlot slot info).generation = s.generation := by
  cases slot <;> rfl

@[simp] theorem setSlot_active (s : UpdaterState) (slot : Slot) (info : SlotInfo) :
    (s.setSlot slot info).active = s.active := by
  cases slot <;> rfl

@[simp] theorem setSlot_previous_active (s : UpdaterState) (slot : Slot) (info : SlotInfo) :
    (s.setSlot slot info).previous_active = s.previous_active := by
  cases slot <;> rfl

@[simp] theorem setSlot_staging (s : UpdaterState) (slot : Slot) (info : SlotInfo) :
    (s.setSlot slot info).staging = s.staging := by
  cases slot <;> rfl

@[simp] theorem setSlot_last_failed (s : UpdaterState) (slot : Slot) (info : SlotInfo) :
    (s.setSlot slot info).last_failed = s.last_failed := by
  cases slot <;> rfl

@[simp] theorem getSlot_setSlot_self (s : UpdaterState) (slot : Slot) (info : SlotInfo) :
    (s.setSlot slot info).getSlot slot = info := by
  cases slot <;> rfl

theorem getSlot_setSlot_other (s : UpdaterState) {slot slot' : Slot} (info : SlotInfo)
    (h : slot' ≠ slot) : (s.setSlot slot info).getSlot slot' = s.getSlot slot' := by
  cases slot <;> cases slot' <;> first | rfl | exact absurd rfl h

theorem stage_generation (s : UpdaterState) (a : Str) (t : Option Slot) :
    (s.stage a t).2.generation = s.generation ∨
      (s.stage a t).2.generation = s.generation + 1 := by
  unfold UpdaterState.stage UpdaterState.stageExisting
  dsimp only
  repeat' split
  all_goals simp

theorem begin_commit_generation (s : UpdaterState) :
    s.begin_commit.2.generation = s.generation := by
  unfold UpdaterState.begin_commit
  dsimp only
  repeat' split
  all_goals simp

theorem finalize_commit_generation (s : UpdaterState) (slot : Slot) :
    (s.finalize_commit slot).generation = s.generation := by
  unfold UpdaterState.finalize_commit
  dsimp only
  repeat' split
  all_goals simp

theorem fail_commit_generation (s : UpdaterState) (slot : Slot) :
    (s.fail_commit slot).generation = s.generation := by
  unfold UpdaterState.fail_commit
  dsimp only
  simp

theorem mark_active_bad_generation (s : UpdaterState) :
    s.mark_active_bad.2.generation = s.generation := by
  unfold UpdaterState.mark_active_bad
  dsimp only
  repeat' split
  all_goals simp

theorem rollback_generation (s : UpdaterState) :
    s.rollback.2.generation = s.generation := by
  unfold UpdaterState.rollback
  dsimp only
  repeat' split
  all_goals simp

theorem apply_generation_le (s : UpdaterState) (op : Op) :
    s.generation ≤ (Op.apply s op).generation := by
  cases op with
  | stage a t =>
    rcases stage_generation s a t with h | h <;> simp [Op.apply, h]
  | begin_commit => simp [Op.apply, begin_commit_generation]
  | finalize_commit slot => simp [Op.apply, finalize_commit_generation]
  | fail_commit slot => simp [Op.apply, fail_commit_generation]
  | mark_active_bad => simp [Op.apply, mark_active_bad_generation]
  | rollback => simp [Op.apply, rollback_generation]

theorem runOps_generation_le (s : UpdaterState) (ops : List Op) :
    s.generation ≤ (runOps s ops).generation := by
  induction ops generalizing s with
  | nil => exact Nat.le_refl _
  | cons op rest ih =>
    exact Nat.le_trans (apply_generation_le s op) (ih (Op.apply s op))

theorem stage_ok_mutated (s : UpdaterState) (a : Str) (t : Option Slot) (slot : Slot)
    (hok : (s.stage a t).1 = .ok slot) (hne : (s.stage a t).2 ≠ s) :
    (s.stage a t).2.generation = s.generation + 1
    ∧ ((s.stage a t).2.getSlot slot).generation = s.generation + 1 := by
  cases slot <;>
    (revert hok hne
     unfold UpdaterState.stage UpdaterState.stageExisting
     dsimp only
     repeat' split
     all_goals intro hok hne
     all_goals simp_all [UpdaterState.getSlot, UpdaterState.setSlot])

theorem stage_previous_active (s : UpdaterState) (a : Str) (t : Option Slot) :
    (s.stage a t).2.previous_active = s.previous_active := by
  unfold UpdaterState.stage UpdaterState.stageExisting
  dsimp only
  repeat' split
  all_goals simp

theorem begin_commit_previous_active (s : UpdaterState) :
    s.begin_commit.2.previous_active = s.previous_active := by
  unfold UpdaterState.begin_commit
  dsimp only
  repeat' split
  all_goals simp

theorem fail_commit_previous_active (s : UpdaterState) (slot : Slot) :
    (s.fail_commit slot).previous_active = s.previous_active := by
  unfold UpdaterState.fail_commit
  dsimp only
  simp

theorem mark_active_bad_previous_active (s : UpdaterState) :
    s.mark_active_bad.2.previous_active = s.previous_active := by
  unfold UpdaterState.mark_active_bad
  dsimp only
  repeat' split
  all_goals simp

theorem finalize_commit_previous_active (s : UpdaterState) (slot : Slot) :
    (s.finalize_commit slot).previous_active =
      (match s.active with
       | some prev => if prev ≠ slot then some prev else none
       | none => none) := by
  unfold UpdaterState.finalize_commit
  dsimp only

theorem rollback_previous_active (s : UpdaterState) :
    s.rollback.2.previous_active = (if s.last_failed = none then s.previous_active else none) := by
  unfold UpdaterState.rollback
  dsimp only
  repeat' split
  all_goals simp_all

/-- C1: the A/B invariant claims that in every state reachable from the
default initial state by the updater operations at most one slot is
`Active`.  The code violates it: after the legitimate sequence
`stage, begin_commit, finalize_commit(B), stage, begin_commit,
fail_commit(A), rollback` (each `finalize_commit`/`fail_commit` applied to
the slot the preceding `begin_commit` returned), `rollback` re-activates
`previous_active = A` without demoting the still-`Active` slot `B`, so both
slots end up `Active`. -/
theorem two_active_slots_reachable :
    ((runOps UpdaterState.default
      [Op.stage ['v', '1'] none, Op.begin_commit, Op.finalize_commit Slot.B,
        Op.stage ['v', '2'] none, Op.begin_commit, Op.fail_commit Slot.A,
        Op.rollback]).getSlot Slot.A).state = SlotState.Active
    ∧ ((runOps UpdaterState.default
      [Op.stage ['v', '1'] none, Op.begin_commit, Op.finalize_commit Slot.B,
        Op.stage ['v', '2'] none, Op.begin_commit, Op.fail_commit Slot.A,
        Op.rollback]).getSlot Slot.B).state = SlotState.Active := by
  decide

/-- C4 (counterexample): `begin_commit` mutates the staged slot's state
(`Staged → Booting`) but leaves the global generation counter unchanged,
refuting the claim that every slot-mutating operation strictly increases
the counter. -/
theorem begin_commit_keeps_generation :
    let s1 := runOps UpdaterState.default [Op.stage ['v', '1'] none]
    let s2 := Op.apply s1 Op.begin_commit
    (s2.getSlot Slot.B).state ≠ (s1.getSlot Slot.B).state ∧ s2.generation = s1.generation := by
  decide

/-- C4 (amended): the generation counter never decreases under any finite
sequence of operations; every operation other than `stage` leaves it
unchanged; and a successful `stage` that actually mutates the state
increments the counter by one and records the new value on the staged
slot's `SlotInfo`. -/
theorem generation_monotone_and_recorded (s : UpdaterState) (ops : List Op)
    (a : Str) (t : Option Slot) (op : Op) (slot : Slot) :
    s.generation ≤ (runOps s ops).generation
    ∧ ((∀ art tgt, op ≠ Op.stage art tgt) → (Op.apply s op).generation = s.generation)
    ∧ ((s.stage a t).1 = .ok slot → (s.stage a t).2 ≠ s →
        (s.stage a t).2.generation = s.generation + 1
        ∧ ((s.stage a t).2.getSlot slot).generation = s.generation + 1) := by
  refine ⟨runOps_generation_le s ops, ?_, fun hok hne => stage_ok_mutated s a t slot hok hne⟩
  intro hnostage
  cases op with
  | stage art tgt => exact absurd rfl (hnostage art tgt)
  | begin_commit => exact begin_commit_generation s
  | finalize_commit slot => exact finalize_commit_generation s slot
  | fail_commit slot => exact fail_commit_generation s slot
  | mark_active_bad => exact mark_active_bad_generation s
  | rollback => exact rollback_generation s

/-- Witness for the amended C4 theorem at a concrete input: from the default
state, `rollback` (a non-`stage` operation) keeps the counter, and staging
`"x"` succeeds into slot `B`, bumps the counter to 1 and records it. -/
theorem generation_monotone_and_recorded_witness :
    UpdaterState.default.generation ≤
        (runOps UpdaterState.default [Op.stage ['x'] none]).generation
    ∧ (Op.apply UpdaterState.default Op.rollback).generation = UpdaterState.default.generation
    ∧ (UpdaterState.default.stage ['x'] none).2.generation = UpdaterState.default.generation + 1
    ∧ ((UpdaterState.default.stage ['x'] none).2.getSlot Slot.B).generation =
        UpdaterState.default.generation + 1 := by
  have h := generation_monotone_and_recorded UpdaterState.default [Op.stage ['x'] none]
    ['x'] none Op.rollback Slot.B
  have h3 := h.2.2 rfl (by decide)
  exact ⟨h.1, h.2.1 (by intro art tgt; simp), h3.1, h3.2⟩

/-- C5 (counterexample): after `stage; begin_commit; finalize_commit(B)` the
state has `previous_active = Some(A)`; staging the new artifact `"v2"`
succeeds (into slot `A`) yet leaves `previous_active = Some(A)`, refuting
the claim that staging a new artifact clears it. -/
theorem stage_does_not_clear_previous_active :
    let s1 := runOps UpdaterState.default
      [Op.stage ['v', '1'] none, Op.begin_commit, Op.finalize_commit Slot.B]
    s1.previous_active = some Slot.A
    ∧ (s1.stage ['v', '2'] none).1 = Except.ok Slot.A
    ∧ (s1.stage ['v', '2'] none).2.previous_active = some Slot.A :=
  ⟨rfl, rfl, rfl⟩

/-- C5 (amended): `previous_active` is never modified by `stage`,
`begin_commit`, `fail_commit` or `mark_active_bad`; `finalize_commit slot`
sets it to the old `active` when that differs from `slot` (and clears it
otherwise); and a successful `rollback` clears it (an unsuccessful one —
`last_failed` or `previous_active` absent — leaves it unchanged).  Hence it
is `Some` exactly from a slot-switching `finalize_commit` until the next
successful `rollback` or non-switching `finalize_commit`, surviving any
intervening `stage`. -/
theorem previous_active_lifecycle (s : UpdaterState) (a : Str) (t : Option Slot) (slot : Slot) :
    (s.stage a t).2.previous_active = s.previous_active
    ∧ s.begin_commit.2.previous_active = s.previous_active
    ∧ (s.fail_commit slot).previous_active = s.previous_active
    ∧ s.mark_active_bad.2.previous_active = s.previous_active
    ∧ (s.finalize_commit slot).previous_active =
        (match s.active with
         | some prev => if prev ≠ slot then some prev else none
         | none => none)
    ∧ s.rollback.2.previous_active = (if s.last_failed = none then s.previous_active else none) :=
  ⟨stage_previous_active s a t, begin_commit_previous_active s,
    fail_commit_previous_active s slot, mark_active_bad_previous_active s,
    finalize_commit_previous_active s slot, rollback_previous_active s⟩

end Updater

namespace Audit

theorem lastHash_append {Event : Type} (p : List Nat) (file : List (AuditRecord Event))
    (r : AuditRecord Event) : lastHash p (file ++ [r]) = r.hash := by
  simp [lastHash]

theorem hydrate_eq_lastHash {Event : Type} (file : List (AuditRecord Event)) :
    hydrate_prev_hash file = lastHash (List.replicate 32 0) file := rfl

theorem chainOk_snoc {Event : Type} (h : List Nat → List Nat) (ser : Event → List Nat)
    (p : List Nat) (file : List (AuditRecord Event)) (r : AuditRecord Event) :
    chainOk h ser p (file ++ [r]) =
      (chainOk h ser p file && r.prev_hash == lastHash p file
        && r.hash == h (r.prev_hash ++ ser r.event)) := by
  induction file generalizing p with
  | nil => simp [chainOk, lastHash]
  | cons x xs ih => simp [chainOk, lastHash, ih, Bool.and_assoc]

theorem append_chain {Event : Type} (h : List Nat → List Nat) (ser : Event → List Nat)
    (w : AuditWriter Event) (ts : Nat) (e : Event)
    (hchain : chainOk h ser (List.replicate 32 0) w.file = true)
    (hprev : w.prev_hash = hydrate_prev_hash w.file) :
    chainOk h ser (List.replicate 32 0) (w.append h ser ts e).file = true
    ∧ (w.append h ser ts e).prev_hash = hydrate_prev_hash (w.append h ser ts e).file := by
  unfold AuditWriter.append
  dsimp only
  constructor
  · rw [chainOk_snoc]
    simp only [Bool.and_eq_true, beq_iff_eq]
    exact ⟨⟨hchain, by rw [hprev, hydrate_eq_lastHash]⟩, trivial⟩
  · rw [hydrate_eq_lastHash, lastHash_append]

theorem appendAll_chain {Event : Type} (h : List Nat → List Nat) (ser : Event → List Nat)
    (events : List (Nat × Event)) (w : AuditWriter Event)
    (hchain : chainOk h ser (List.replicate 32 0) w.file = true)
    (hprev : w.prev_hash = hydrate_prev_hash w.file) :
    chainOk h ser (List.replicate 32 0) (appendAll h ser w events).file = true
    ∧ (appendAll h ser w events).prev_hash = hydrate_prev_hash (appendAll h ser w events).file
    ∧ (appendAll h ser w events).file.map (fun r => r.event) =
        w.file.map (fun r => r.event) ++ events.map Prod.snd := by
  induction events generalizing w with
  | nil => simpa [appendAll] using ⟨hchain, hprev⟩
  | cons te rest ih =>
    have step := append_chain h ser w te.1 te.2 hchain hprev
    have tail := ih (w.append h ser te.1 te.2) step.1 step.2
    refine ⟨tail.1, tail.2.1, ?_⟩
    have : appendAll h ser w (te :: rest) = appendAll h ser (w.append h ser te.1 te.2) rest := by
      simp [appendAll]
    rw [this, tail.2.2]
    simp [AuditWriter.append]

theorem chainOk_get_hash {Event : Type} (h : List Nat → List Nat) (ser : Event → List Nat)
    (p : List Nat) (file : List (AuditRecord Event))
    (hch : chainOk h ser p file = true) (i : Nat) (hi : i < file.length) :
    (file.get ⟨i, hi⟩).hash =
      h ((file.get ⟨i, hi⟩).prev_hash ++ ser ((file.get ⟨i, hi⟩).event)) := by
  induction file generalizing p i with
  | nil => simp at hi
  | cons r rest ih =>
    simp only [chainOk, Bool.and_eq_true, beq_iff_eq] at hch
    cases i with
    | zero => simpa using hch.1.2
    | succ n =>
      have hn : n < rest.length := by simpa using hi
      simpa using ih r.hash hch.2 n hn

theorem chainOk_head_prev {Event : Type} (h : List Nat → List Nat) (ser : Event → List Nat)
    (p : List Nat) (file : List (AuditRecord Event))
    (hch : chainOk h ser p file = true) (hlen : 0 < file.length) :
    (file.get ⟨0, hlen⟩).prev_hash = p := by
  cases file with
  | nil => simp at hlen
  | cons r rest =>
    simp only [chainOk, Bool.and_eq_true, beq_iff_eq] at hch
    simpa using hch.1.1

theorem chainOk_adjacent {Event : Type} (h : List Nat → List Nat) (ser : Event → List Nat)
    (p : List Nat) (file : List (AuditRecord Event))
    (hch : chainOk h ser p file = true) (i : Nat) (hi : i + 1 < file.length) :
    (file.get ⟨i + 1, hi⟩).prev_hash =
      (file.get ⟨i, Nat.lt_of_succ_lt hi⟩).hash := by
  induction file generalizing p i with
  | nil => simp at hi
  | cons r rest ih =>
    simp only [chainOk, Bool.and_eq_true, beq_iff_eq] at hch
    cases i with
    | zero =>
      have hlen : 0 < rest.length := by simpa using hi
      simpa using chainOk_head_prev h ser r.hash rest hch.2 hlen
    | succ n =>
      have hn : n + 1 < rest.length := by simpa using hi
      simpa using ih r.hash hch.2 n hn

/-- C2: starting from an empty log, after any finite sequence of appends,
every stored record's `hash` is the hash of its stored `prev_hash` followed
by the serialized event; the first record's `prev_hash` is 32 zero bytes;
each subsequent record's `prev_hash` equals the previous record's `hash`;
the recorded events are exactly the appended ones in order; and re-hydrating
from the stored file yields exactly the `prev_hash` the writer would carry
into the next append, so a post-restart append extends the same chain. -/
theorem audit_chain_invariant (Event : Type) (h : List Nat → List Nat) (ser : Event → List Nat)
    (events : List (Nat × Event)) (w : AuditWriter Event)
    (hw : w = appendAll h ser (AuditWriter.new []) events) :
    chainOk h ser (List.replicate 32 0) w.file = true
    ∧ w.file.map (fun r => r.event) = events.map Prod.snd
    ∧ (∀ i (hi : i < w.file.length),
        (w.file.get ⟨i, hi⟩).hash =
          h ((w.file.get ⟨i, hi⟩).prev_hash ++ ser ((w.file.get ⟨i, hi⟩).event)))
    ∧ (∀ hlen : 0 < w.file.length, (w.file.get ⟨0, hlen⟩).prev_hash = List.replicate 32 0)
    ∧ (∀ i (hi : i + 1 < w.file.length),
        (w.file.get ⟨i + 1, hi⟩).prev_hash = (w.file.get ⟨i, Nat.lt_of_succ_lt hi⟩).hash)
    ∧ hydrate_prev_hash w.file = w.prev_hash
    ∧ ∀ ts e, chainOk h ser (List.replicate 32 0)
        (((AuditWriter.new w.file).append h ser ts e).file) = true := by
  subst hw
  have base : chainOk h ser (List.replicate 32 0)
      (AuditWriter.new ([] : List (AuditRecord Event))).file = true := rfl
  have bprev : (AuditWriter.new ([] : List (AuditRecord Event))).prev_hash =
      hydrate_prev_hash (AuditWriter.new ([] : List (AuditRecord Event))).file := rfl
  have main := appendAll_chain h ser events (AuditWriter.new []) base bprev
  refine ⟨main.1, by simpa using main.2.2,
    fun i hi => chainOk_get_hash h ser _ _ main.1 i hi,
    fun hlen => chainOk_head_prev h ser _ _ main.1 hlen,
    fun i hi => chainOk_adjacent h ser _ _ main.1 i hi,
    main.2.1.symm, ?_⟩
  intro ts e
  exact (append_chain h ser
    (AuditWriter.new (appendAll h ser (AuditWriter.new []) events).file) ts e main.1 rfl).1

/-- Witness for the C2 theorem at a concrete input: two appends with a toy
hash and serializer; the second record links to the first record's hash and
the first record links to the 32 zero bytes. -/
theorem audit_chain_invariant_witness :
    let w := appendAll (fun l => [l.length]) (fun n : Nat => [n])
      (AuditWriter.new []) [(0, 5), (1, 7)]
    (w.file.get ⟨1, by decide⟩).prev_hash = (w.file.get ⟨0, by decide⟩).hash
    ∧ (w.file.get ⟨0, by decide⟩).prev_hash = List.replicate 32 0 := by
  intro w
  have h := audit_chain_invariant Nat (fun l => [l.length]) (fun n => [n]) [(0, 5), (1, 7)]
    (appendAll (fun l => [l.length]) (fun n => [n]) (AuditWriter.new []) [(0, 5), (1, 7)]) rfl
  exact ⟨h.2.2.2.2.1 0 (by decide), h.2.2.2.1 (by decide)⟩

end Audit

namespace Rbac

theorem ruleMatches_iff_spec (rule : RouteRule) (method path : Str) :
    rule.ruleMatches method path = true ↔ specRuleMatches rule method path := by
  unfold RouteRule.ruleMatches patternMatches specRuleMatches
  by_cases hstar : rule.pattern.getLast? = some '*' <;>
    simp [hstar, List.isPrefixOf_iff_prefix, List.elem_iff]

theorem roles_any_iff_inter (roles : List Role) (eff : Finset Role) :
    roles.any (fun r => r ∈ eff) = decide (roles.toFinset ∩ eff ≠ ∅) := by
  rw [Bool.eq_iff_iff]
  simp [List.any_eq_true, Finset.eq_empty_iff_forall_not_mem]

theorem authorizeLoop_eq_find (eff : Finset Role) (method path : Str) (rules : List RouteRule) :
    authorizeLoop eff method path rules =
      (match rules.find? (fun rule => decide (specRuleMatches rule method path)) with
       | some rule =>
         { allowed := decide (rule.roles.toFinset ∩ eff ≠ ∅)
           audit_action := rule.audit_action }
       | none => { allowed := false, audit_action := none }) := by
  induction rules with
  | nil => rfl
  | cons r rest ih =>
    by_cases hm : specRuleMatches r method path
    · have hb : r.ruleMatches method path = true := (ruleMatches_iff_spec r method path).mpr hm
      simp [authorizeLoop, hb, List.find?_cons, hm, roles_any_iff_inter]
    · have hb : r.ruleMatches method path = false := by
        rw [← Bool.not_eq_true]
        exact fun hc => hm ((ruleMatches_iff_spec r method path).mp hc)
      simp [authorizeLoop, hb, List.find?_cons, hm, ih]

/-- C3: `authorize` returns the decision of the first rule in file order
whose method set contains the method and whose pattern matches the path
(exact equality, or prefix match when the pattern ends in `'*'`), with
`allowed` true exactly when the rule's roles intersect the effective role
set and with that rule's `audit_action`; with no matching rule it denies
with no audit action. -/
theorem authorize_is_first_match (p : RbacPolicy) (role : Role) (method path : Str) :
    p.authorize role method path = specDecision p role method path := by
  unfold RbacPolicy.authorize specDecision
  exact authorizeLoop_eq_find (p.expand_roles role) method path p.rules

theorem expandLoop_nil (p : RbacPolicy) (visited : Finset Role) :
    expandLoop p [] visited = visited := by
  rw [expandLoop]

theorem expandLoop_cons_mem (p : RbacPolicy) (current : Role) (stack : List Role)
    (visited : Finset Role) (h : current ∈ visited) :
    expandLoop p (current :: stack) visited = expandLoop p stack visited := by
  rw [expandLoop, if_pos h]

theorem expandLoop_cons_not_mem (p : RbacPolicy) (current : Role) (stack : List Role)
    (visited : Finset Role) (h : current ∉ visited) :
    expandLoop p (current :: stack) visited =
      expandLoop p (inheritsOf p current ++ stack) (insert current visited) := by
  rw [expandLoop, if_neg h]

theorem expandLoop_visited_subset (p : RbacPolicy) (stack : List Role) (visited : Finset Role) :
    visited ⊆ expandLoop p stack visited := by
  induction stack, visited using expandLoop.induct p with
  | case1 visited => rw [expandLoop_nil]
  | case2 current stack visited hmem ih =>
    rw [expandLoop_cons_mem p current stack visited hmem]
    exact ih
  | case3 current stack visited hmem ih =>
    rw [expandLoop_cons_not_mem p current stack visited hmem]
    exact fun x hx => ih (Finset.mem_insert_of_mem hx)

theorem expandLoop_stack_subset (p : RbacPolicy) (stack : List Role) (visited : Finset Role) :
    ∀ x ∈ stack, x ∈ expandLoop p stack visited := by
  induction stack, visited using expandLoop.induct p with
  | case1 visited => intro x hx; simp at hx
  | case2 current stack visited hmem ih =>
    intro x hx
    rw [expandLoop_cons_mem p current stack visited hmem]
    rcases List.mem_cons.mp hx with rfl | hx'
    · exact expandLoop_visited_subset p stack visited hmem
    · exact ih x hx'
  | case3 current stack visited hmem ih =>
    intro x hx
    rw [expandLoop_cons_not_mem p current stack visited hmem]
    rcases List.mem_cons.mp hx with rfl | hx'
    · exact expandLoop_visited_subset p _ _ (Finset.mem_insert_self x visited)
    · exact ih x (List.mem_append_right _ hx')

theorem expandLoop_sound (p : RbacPolicy) (stack : List Role) (visited : Finset Role) :
    ∀ x ∈ expandLoop p stack visited,
      x ∈ visited ∨ ∃ y ∈ stack, Relation.ReflTransGen (InheritStep p) y x := by
  induction stack, visited using expandLoop.induct p with
  | case1 visited =>
    intro x hx
    rw [expandLoop_nil] at hx
    exact .inl hx
  | case2 current stack visited hmem ih =>
    intro x hx
    rw [expandLoop_cons_mem p current stack visited hmem] at hx
    rcases ih x hx with h | ⟨y, hy, hr⟩
    · exact .inl h
    · exact .inr ⟨y, List.mem_cons_of_mem _ hy, hr⟩
  | case3 current stack visited hmem ih =>
    intro x hx
    rw [expandLoop_cons_not_mem p current stack visited hmem] at hx
    rcases ih x hx with h | ⟨y, hy, hr⟩
    · rcases Finset.mem_insert.mp h with rfl | h'
      · exact .inr ⟨x, List.mem_cons_self x stack, Relation.ReflTransGen.refl⟩
      · exact .inl h'
    · rcases List.mem_append.mp hy with hpar | hst
      · exact .inr ⟨current, List.mem_cons_self _ _, Relation.ReflTransGen.head hpar hr⟩
      · exact .inr ⟨y, List.mem_cons_of_mem _ hst, hr⟩

theorem expandLoop_closed (p : RbacPolicy) (stack : List Role) (visited : Finset Role)
    (hinv : ∀ a ∈ visited, ∀ b ∈ inheritsOf p a, b ∈ visited ∨ b ∈ stack) :
    ∀ a ∈ expandLoop p stack visited, ∀ b ∈ inheritsOf p a,
      b ∈ expandLoop p stack visited := by
  induction stack, visited using expandLoop.induct p with
  | case1 visited =>
    rw [expandLoop_nil]
    intro a ha b hb
    rcases hinv a ha b hb with h | h
    · exact h
    · simp at h
  | case2 current stack visited hmem ih =>
    rw [expandLoop_cons_mem p current stack visited hmem]
    apply ih
    intro a ha b hb
    rcases hinv a ha b hb with h | h
    · exact .inl h
    · rcases List.mem_cons.mp h with rfl | h'
      · exact .inl hmem
      · exact .inr h'
  | case3 current stack visited hmem ih =>
    rw [expandLoop_cons_not_mem p current stack visited hmem]
    apply ih
    intro a ha b hb
    rcases Finset.mem_insert.mp ha with rfl | ha'
    · exact .inr (List.mem_append_left _ hb)
    · rcases hinv a ha' b hb with h | h
      · exact .inl (Finset.mem_insert_of_mem h)
      · rcases List.mem_cons.mp h with rfl | h'
        · exact .inl (Finset.mem_insert_self _ _)
        · exact .inr (List.mem_append_right _ h')

theorem expand_roles_mem_self (p : RbacPolicy) (r : Role) : r ∈ p.expand_roles r :=
  expandLoop_stack_subset p [r] ∅ r (by simp)

theorem expand_roles_closed (p : RbacPolicy) (r : Role) :
    ∀ a ∈ p.expand_roles r, ∀ b ∈ inheritsOf p a, b ∈ p.expand_roles r := by
  apply expandLoop_closed
  intro a ha
  exact absurd ha (Finset.not_mem_empty a)

theorem reach_mem_expand_roles (p : RbacPolicy) (r x : Role)
    (h : Relation.ReflTransGen (InheritStep p) r x) : x ∈ p.expand_roles r := by
  induction h with
  | refl => exact expand_roles_mem_self p r
  | tail _hab hbc ih => exact expand_roles_closed p r _ ih _ hbc

theorem expand_roles_sound (p : RbacPolicy) (r x : Role) (hx : x ∈ p.expand_roles r) :
    Relation.ReflTransGen (InheritStep p) r x := by
  rcases expandLoop_sound p [r] ∅ x hx with h | ⟨y, hy, hr⟩
  · exact absurd h (Finset.not_mem_empty x)
  · rw [List.mem_singleton.mp hy] at hr
    exact hr

theorem expand_roles_mono (p : RbacPolicy) {R R' : Role}
    (h : Relation.ReflTransGen (InheritStep p) R R') :
    p.expand_roles R' ⊆ p.expand_roles R := fun x hx =>
  reach_mem_expand_roles p R x (h.trans (expand_roles_sound p R' x hx))

theorem authorizeLoop_allowed_mono (eff effBig : Finset Role) (hsub : eff ⊆ effBig)
    (method path : Str) (rules : List RouteRule)
    (h : (authorizeLoop eff method path rules).allowed = true) :
    (authorizeLoop effBig method path rules).allowed = true := by
  induction rules with
  | nil => simp [authorizeLoop] at h
  | cons r rest ih =>
    by_cases hm : r.ruleMatches method path
    · simp only [authorizeLoop, hm, if_true] at h ⊢
      simp only [List.any_eq_true, decide_eq_true_eq] at h ⊢
      rcases h with ⟨x, hx, hmem⟩
      exact ⟨x, hx, hsub hmem⟩
    · simp only [authorizeLoop, hm, if_false, Bool.false_eq_true] at h ⊢
      exact ih h

/-- C7: if role `R` inherits role `R'` directly or transitively, then the
effective role set of `R` is a superset of that of `R'`, and every request
allowed for `R'` is allowed for `R` (authorization is monotone in the
effective role set, and the matched rule does not depend on the role). -/
theorem inheritance_monotone (p : RbacPolicy) (R R' : Role) (method path : Str)
    (hinh : Relation.TransGen (InheritStep p) R R')
    (hallow : (p.authorize R' method path).allowed = true) :
    (p.authorize R method path).allowed = true
    ∧ p.expand_roles R' ⊆ p.expand_roles R := by
  have hsub := expand_roles_mono p hinh.to_reflTransGen
  unfold RbacPolicy.authorize at hallow ⊢
  exact ⟨authorizeLoop_allowed_mono _ _ hsub method path p.rules hallow, hsub⟩

/-- A role with no recorded parents expands to itself alone. -/
theorem expand_roles_no_parents (p : RbacPolicy) (r : Role) (h : inheritsOf p r = []) :
    p.expand_roles r = {r} := by
  unfold RbacPolicy.expand_roles
  rw [expandLoop_cons_not_mem _ _ _ _ (Finset.not_mem_empty _), h]
  exact expandLoop_nil p {r}

/-- Witness for the C7 theorem at a concrete input: with a policy where
`owner` inherits `admin` and one rule admits `admin` on `GET /x`, the
theorem yields that `owner` is allowed on `GET /x`. -/
theorem inheritance_monotone_witness :
    ((⟨[{ pattern := ['/', 'x'], methods := [GET], roles := [Role.Admin],
          audit_action := none }],
        [(Role.Owner, [Role.Admin])]⟩ : RbacPolicy).authorize
      Role.Owner GET ['/', 'x']).allowed = true := by
  refine (inheritance_monotone _ Role.Owner Role.Admin GET ['/', 'x']
    (Relation.TransGen.single (by decide)) ?_).1
  unfold RbacPolicy.authorize
  have hexp := expand_roles_no_parents ⟨[{ pattern := ['/', 'x'], methods := [GET], roles := [Role.Admin], audit_action := none }], [(Role.Owner, [Role.Admin])]⟩ Role.Admin rfl
  rw [hexp]
  decide


/-- C10: a raw YAML route whose methods list is omitted or empty converts to
a rule whose method set is exactly `{GET}`; a request with any other method
never matches that rule, and the authorize loop on it falls through to the
remaining rules (hence to deny-by-default when none remain). -/
theorem empty_methods_default_get (raw : RawRoute) (rule : RouteRule)
    (hempty : raw.methods = []) (hok : convertRoute raw = .ok rule) :
    rule.methods = [GET]
    ∧ (∀ m path, m ≠ GET → rule.ruleMatches m path = false)
    ∧ (∀ eff m path rest, m ≠ GET →
        authorizeLoop eff m path (rule :: rest) = authorizeLoop eff m path rest) := by
  have hmethods : rule.methods = [GET] := by
    unfold convertRoute convertMethods at hok
    rw [hempty] at hok
    cases hmr : raw.roles.mapM roleFromStr with
    | error e =>
      rw [hmr] at hok
      simp [Bind.bind, Except.bind] at hok
    | ok roles =>
      rw [hmr] at hok
      simp only [List.isEmpty_nil, if_true, Bind.bind, Except.bind, Except.ok.injEq] at hok
      rw [← hok]
  have hmatch : ∀ m path, m ≠ GET → rule.ruleMatches m path = false := by
    intro m path hm
    have hcontains : ([GET] : List Str).contains m = false :=
      Bool.eq_false_iff.mpr (fun hc => hm (List.mem_singleton.mp (List.elem_iff.mp hc)))
    unfold RouteRule.ruleMatches
    rw [hmethods, hcontains]
    simp
  refine ⟨hmethods, hmatch, ?_⟩
  intro eff m path rest hm
  conv_lhs => rw [authorizeLoop]
  rw [hmatch m path hm]
  simp

/-- Witness for the C10 theorem at a concrete input: a raw route with an
empty methods list converts to a rule with method set `{GET}` that a `POST`
request never matches. -/
theorem empty_methods_default_get_witness :
    ({ pattern := ['/', 'a'], methods := [GET], roles := [Role.Guest],
        audit_action := none } : RouteRule).methods = [GET]
    ∧ ({ pattern := ['/', 'a'], methods := [GET], roles := [Role.Guest],
            audit_action := none } : RouteRule).ruleMatches
        ['P', 'O', 'S', 'T'] ['/', 'a'] = false := by
  have h := empty_methods_default_get
    ⟨['/', 'a'], [], [['g', 'u', 'e', 's', 't']], none⟩
    ⟨['/', 'a'], [GET], [Role.Guest], none⟩ rfl rfl
  exact ⟨h.1, h.2.1 ['P', 'O', 'S', 'T'] ['/', 'a'] (by decide)⟩

end Rbac


namespace Health

theorem pollOne_clean (ex : Exchange) (hclean : completesCleanly ex = true) :
    pollOne ex = .ok (isHealthy ex) := by
  cases ex with
  | transportErr => simp [completesCleanly] at hclean
  | response st body =>
    by_cases herr : 400 ≤ st ∧ st ≤ 599
    · exfalso
      simp [completesCleanly, herr] at hclean
    · by_cases hs : 200 ≤ st ∧ st < 300
      · cases body <;> simp [pollOne, isHealthy, herr, hs]
      · cases body <;> simp [pollOne, isHealthy, herr, hs]

theorem countHealthy_cons (ex : Exchange) (rest : List Exchange) :
    countHealthy (ex :: rest) = (if isHealthy ex then 1 else 0) + countHealthy rest := by
  by_cases h : isHealthy ex <;> simp [countHealthy, List.filter_cons, h]
  omega


theorem pollRound_clean (round : List Exchange)
    (hclean : ∀ ex ∈ round, completesCleanly ex = true) :
    pollRound round = .ok (countHealthy round) := by
  induction round with
  | nil => rfl
  | cons ex rest ih =>
    have hone := pollOne_clean ex (hclean ex (List.mem_cons_self _ _))
    have hrest := ih (fun e he => hclean e (List.mem_cons_of_mem _ he))
    rw [pollRound, hone, hrest, countHealthy_cons]

theorem waitLoop_cons (q : Nat) (round : List Exchange) (rest : List (List Exchange)) :
    waitLoop q (round :: rest) =
      (match pollRound round with
       | .error e => .error e
       | .ok healthy =>
         if q ≤ healthy then .ok true
         else
           match rest with
           | [] => .ok false
           | _ :: _ => waitLoop q rest) := rfl

theorem waitLoop_clean (q : Nat) (rounds : List (List Exchange))
    (hclean : ∀ r ∈ rounds, ∀ ex ∈ r, completesCleanly ex = true) :
    waitLoop q rounds = .ok (rounds.any (fun r => q ≤ countHealthy r)) := by
  induction rounds with
  | nil => rfl
  | cons round rest ih =>
    have h1 := pollRound_clean round (hclean round (List.mem_cons_self _ _))
    have hrest := ih (fun r hr => hclean r (List.mem_cons_of_mem _ hr))
    rw [waitLoop_cons, h1]
    by_cases hq : q ≤ countHealthy round
    · simp [hq]
    · cases rest with
      | nil => simp [hq]
      | cons r2 rs => simp [hq, hrest]

/-- C6 (counterexample): an endpoint whose HTTP exchange completes with
status 500 makes the whole call return `Err` (through
`error_for_status()?`), instead of merely not being counted for that round:
the claim that a completed non-2xx exchange "does not abort the call" and
that "only transport errors propagate as Err" fails. -/
theorem status_500_aborts_call :
    wait_for_quorum 1 1 [[Exchange.response 500 (some ['o', 'k'])]]
      = .error (HealthErr.status 500) := rfl

/-- C6 (amended): for a non-empty endpoint list and quorum ≥ 1, as long as
every polled exchange completes without a transport failure and with a
status outside 400–599, the call never errors: it returns `Ok(true)` exactly
when some polled round counts at least `min Q |E|` endpoints that answered
2xx with a case-insensitive `"ok"` body (2xx responses with any other body,
and completed statuses outside both 2xx and 400–599, are not counted but do
not abort), and `Ok(false)` once the deadline elapses (the round schedule is
exhausted) without reaching quorum.  Transport failures and 4xx/5xx statuses
are the cases that propagate as `Err`. -/
theorem wait_for_quorum_rounds (numEndpoints quorum : Nat)
    (rounds : List (List Exchange)) (hE : 0 < numEndpoints) (hQ : 0 < quorum)
    (hclean : ∀ r ∈ rounds, ∀ ex ∈ r, completesCleanly ex = true) :
    wait_for_quorum numEndpoints quorum rounds =
      .ok (rounds.any (fun r => min quorum numEndpoints ≤ countHealthy r)) := by
  unfold wait_for_quorum
  rw [if_neg (by omega)]
  exact waitLoop_clean _ _ hclean

/-- Witness for the amended C6 theorem at a concrete input: two endpoints,
quorum 1; in the single round one endpoint answers 204 with no parseable
body (not counted, not fatal) and the other answers 201 with body `"OK"`
(counted case-insensitively), so the call returns `Ok(true)`. -/
theorem wait_for_quorum_rounds_witness :
    wait_for_quorum 2 1
      [[Exchange.response 204 none, Exchange.response 201 (some ['O', 'K'])]] = .ok true := by
  rw [wait_for_quorum_rounds 2 1
    [[Exchange.response 204 none, Exchange.response 201 (some ['O', 'K'])]]
    (by decide) (by decide) (by decide)]
  rfl

end Health

namespace Bundle

theorem comp_pred_iff (c : PathComponent) :
    (match c with
      | PathComponent.CurDir => true
      | PathComponent.Normal _ => true
      | _ => false) = true ↔
      (c ≠ PathComponent.ParentDir ∧ c ≠ PathComponent.RootDir) := by
  cases c <;> simp

theorem validate_ok_iff (path : Str) :
    validate_relative_path path = .ok () ↔
      (isAbsolute path = false
        ∧ ∀ c ∈ pathComponents path,
            c ≠ PathComponent.ParentDir ∧ c ≠ PathComponent.RootDir) := by
  unfold validate_relative_path
  by_cases habs : isAbsolute path = true
  · simp [habs]
  · rw [if_neg habs]
    rw [Bool.not_eq_true] at habs
    by_cases hall : (pathComponents path).all
        (fun c => match c with
          | PathComponent.CurDir => true
          | PathComponent.Normal _ => true
          | _ => false) = true
    · rw [if_pos hall]
      simp only [List.all_eq_true, comp_pred_iff] at hall
      constructor
      · exact fun _ => ⟨habs, hall⟩
      · exact fun _ => rfl
    · rw [if_neg hall]
      simp only [List.all_eq_true, comp_pred_iff] at hall
      simp [habs, hall]

theorem validate_error_of_bad (path : Str)
    (h : isAbsolute path = true ∨ PathComponent.ParentDir ∈ pathComponents path) :
    validate_relative_path path = .error (.InvalidComponentPath path) := by
  unfold validate_relative_path
  rcases h with habs | hpar
  · rw [if_pos habs]
  · by_cases habs : isAbsolute path = true
    · rw [if_pos habs]
    · rw [if_neg habs]
      have hall : ¬ (pathComponents path).all
          (fun c => match c with
            | PathComponent.CurDir => true
            | PathComponent.Normal _ => true
            | _ => false) = true := by
        simp only [List.all_eq_true, comp_pred_iff]
        intro hfor
        exact (hfor _ hpar).1 rfl
      rw [if_neg hall]

theorem checkComponent_ok_iff (fs : Str → FsMeta) (path : Str) :
    checkComponent fs path = .ok () ↔
      (validate_relative_path path = .ok () ∧ fs path = .file) := by
  unfold checkComponent
  cases hv : validate_relative_path path with
  | error e => simp [hv]
  | ok u =>
    cases u
    cases hfs : fs path <;> simp [hfs]

/-- C8 (amended): `verify`'s per-component check accepts a path only if it
is relative and every `Path` component is a current-directory or normal
component and the target is a regular file; it rejects absolute paths and
paths with a parent-directory component with `InvalidComponentPath`
(current-directory components are explicitly permitted), and rejects a
validated path whose target is missing or not a regular file with
`MissingComponentFile` (other metadata I/O errors propagate as `Io`). -/
theorem check_component_characterisation (fs : Str → FsMeta) (path : Str) :
    (checkComponent fs path = .ok () ↔
      (isAbsolute path = false
        ∧ (∀ c ∈ pathComponents path,
            c ≠ PathComponent.ParentDir ∧ c ≠ PathComponent.RootDir)
        ∧ fs path = .file))
    ∧ ((isAbsolute path = true ∨ PathComponent.ParentDir ∈ pathComponents path) →
        checkComponent fs path = .error (.InvalidComponentPath path))
    ∧ (validate_relative_path path = .ok () →
        (fs path = .notFound ∨ fs path = .dir) →
        checkComponent fs path = .error (.MissingComponentFile path)) := by
  refine ⟨?_, ?_, ?_⟩
  · rw [checkComponent_ok_iff, validate_ok_iff, and_assoc]
  · intro hbad
    unfold checkComponent
    rw [validate_error_of_bad path hbad]
  · intro hok hfs
    unfold checkComponent
    rw [hok]
    rcases hfs with h | h <;> rw [h]

/-- C8 (counterexample): the component path `"./x"` has a current-directory
component, which the claim says `verify` rejects with
`InvalidComponentPath`; `validate_relative_path` accepts it (Rust's
`Component::CurDir` is in the allowed arm of the match). -/
theorem curdir_component_accepted :
    pathComponents ['.', '/', 'x'] = [PathComponent.CurDir, PathComponent.Normal ['x']]
    ∧ validate_relative_path ['.', '/', 'x'] = .ok ()
    ∧ checkComponent (fun _ => FsMeta.file) ['.', '/', 'x'] = .ok () :=
  ⟨rfl, rfl, rfl⟩

/-- Witness for the amended C8 theorem at concrete inputs: the plain
relative path `"a"` is accepted when the target is a regular file, and
rejected with `MissingComponentFile` when the target is absent; the
traversal `"../a"` is rejected with `InvalidComponentPath`. -/
theorem check_component_characterisation_witness :
    checkComponent (fun _ => FsMeta.file) ['a'] = .ok ()
    ∧ checkComponent (fun _ => FsMeta.notFound) ['a'] =
        .error (.MissingComponentFile ['a'])
    ∧ checkComponent (fun _ => FsMeta.file) ['.', '.', '/', 'a'] =
        .error (.InvalidComponentPath ['.', '.', '/', 'a']) := by
  refine ⟨?_, ?_, ?_⟩
  · exact (check_component_characterisation (fun _ => FsMeta.file) ['a']).1.mpr
      ⟨rfl, by decide, rfl⟩
  · exact (check_component_characterisation (fun _ => FsMeta.notFound) ['a']).2.2
      rfl (Or.inl rfl)
  · exact (check_component_characterisation (fun _ => FsMeta.file)
      ['.', '.', '/', 'a']).2.1 (Or.inr (by decide))

end Bundle

namespace RuleEngine

theorem evalConditions_fired (context : List (Str × Json)) (now : Str) (conds : List Condition) :
    (evalConditions context now conds).2 =
      conds.all (fun c => c.evaluate context now == ConditionState.Matched) := by
  induction conds with
  | nil => rfl
  | cons c rest ih =>
    cases hc : c.evaluate context now with
    | Matched => simp [evalConditions, hc, ih]
    | Failed => simp [evalConditions, hc]

theorem evalConditions_trace (context : List (Str × Json)) (now : Str) (conds : List Condition) :
    (evalConditions context now conds).1 =
      (conds.takeWhile (fun c => c.evaluate context now == ConditionState.Matched)).map
          TraceMsg.condMatched
        ++ (match conds.dropWhile (fun c => c.evaluate context now == ConditionState.Matched) with
            | [] => []
            | c :: _ => [TraceMsg.condFailed c]) := by
  induction conds with
  | nil => rfl
  | cons c rest ih =>
    cases hc : c.evaluate context now with
    | Matched => simp [evalConditions, hc, ih, List.takeWhile_cons, List.dropWhile_cons]
    | Failed => simp [evalConditions, hc, List.takeWhile_cons, List.dropWhile_cons]

/-- C9: `evaluate_rule` resolves each condition's two sides through
`ValueRef::resolve` (a literal is itself; a context path resolves from the
context, with the path `"now"` defaulting to the RFC3339 rendering of the
evaluation time when absent), evaluates the conditions in order and stops at
the first failing one — the trace records exactly the evaluated prefix —
and the result marks every action `Executed` with `fired = true` exactly
when all conditions pass, and every action `Skipped` with `fired = false`
otherwise. -/
theorem evaluate_rule_spec {A : Type} (rule : RuleDefinition A)
    (context : List (Str × Json)) (now : Str) :
    let result := evaluate_rule rule context now
    let pass := fun c => Condition.evaluate c context now == ConditionState.Matched
    (result.fired = rule.conditions.all pass)
    ∧ result.actions = rule.actions.map (fun a =>
        { action := a
          status := if rule.conditions.all pass then ActionStatus.Executed
            else ActionStatus.Skipped })
    ∧ result.trace =
        TraceMsg.evaluating rule.id ::
          ((rule.conditions.takeWhile pass).map TraceMsg.condMatched
            ++ (match rule.conditions.dropWhile pass with
                | [] => []
                | c :: _ => [TraceMsg.condFailed c])
            ++ [if rule.conditions.all pass then TraceMsg.satisfied else TraceMsg.failed])
    ∧ (resolve_path context ['n', 'o', 'w'] = none →
        (ValueRef.Context ['n', 'o', 'w']).resolve context now = Json.str now) := by
  intro result pass
  have hfired := evalConditions_fired context now rule.conditions
  have htrace := evalConditions_trace context now rule.conditions
  have hact : result.actions = rule.actions.map (fun a =>
      { action := a
        status := if (evalConditions context now rule.conditions).2 then ActionStatus.Executed
          else ActionStatus.Skipped }) := rfl
  have htr : result.trace = TraceMsg.evaluating rule.id ::
      ((evalConditions context now rule.conditions).1
        ++ [if (evalConditions context now rule.conditions).2 then TraceMsg.satisfied
            else TraceMsg.failed]) := rfl
  refine ⟨hfired, ?_, ?_, ?_⟩
  · rw [hact, hfired]
  · rw [htr, htrace, hfired]
  · intro hnone
    simp [ValueRef.resolve, hnone]

/-- Witness for the C9 theorem at a concrete input: a three-condition rule
whose second condition fails on the empty context does not fire, and the
`"now"` context path resolves to the supplied timestamp rendering. -/
theorem evaluate_rule_spec_witness :
    (evaluate_rule
      { id := ['r']
        conditions := [Condition.Equals (ValueRef.Literal Json.null) (ValueRef.Literal Json.null),
          Condition.Equals (ValueRef.Literal (Json.num 1)) (ValueRef.Literal (Json.num 2)),
          Condition.Equals (ValueRef.Literal Json.null) (ValueRef.Literal Json.null)]
        actions := [0, 1] } [] ['t']).fired = false
    ∧ (ValueRef.Context ['n', 'o', 'w']).resolve [] ['t'] = Json.str ['t'] := by
  have h := evaluate_rule_spec (A := Nat)
    { id := ['r']
      conditions := [Condition.Equals (ValueRef.Literal Json.null) (ValueRef.Literal Json.null),
        Condition.Equals (ValueRef.Literal (Json.num 1)) (ValueRef.Literal (Json.num 2)),
        Condition.Equals (ValueRef.Literal Json.null) (ValueRef.Literal Json.null)]
      actions := [0, 1] } [] ['t']
  refine ⟨?_, h.2.2.2 rfl⟩
  rw [h.1]
  rfl

end RuleEngine

end LokanOS
